import Mathlib

/-!
Verification of `hack/push-to-quay.py` from the cincinnati-graph-data
repository.

The script loads an upgrade graph from JSON files (`load_nodes`,
`load_edges`), then reconciles each node's Quay manifest labels with the
desired graph data (`sync_node`), issuing HTTP label deletions/creations
(`delete_label`, `post_label`) or only logging them when no token is given.

Embedding conventions:
- Python `str` is Lean `String`; character-level work happens on `.data`
  (`List Char`) with structural recursion so every definition evaluates
  in the kernel.  Python compares strings lexicographically by code
  point, which `lexLeChars` reproduces.
- Python `set` is `Finset String`; `sorted(s)` is `pysorted`, an
  insertion sort by the code-point order, lifted to the underlying
  multiset.
- Python `dict` holding the remote labels is a function
  `String → Option String` from label key to label value
  (`get_labels` keys each label record by `label["key"]`).
- Exceptions are an explicit `PyError` value in `Except`: `ValueError`
  raised by the script itself, and `KeyError` raised by unguarded
  dictionary indexing (`nodes[edge["from"]]`) or by
  `tarfile.extractfile` on a missing member.
- `sync_node` is modelled as a pure function returning the list of label
  mutations it performs, in order; the HTTP transport (`urlopen`) is
  abstracted away, with the remote inputs (`get_labels` result,
  `get_release_metadata` result) passed in explicitly.
-/

namespace PushToQuay

/-! ## Python string primitives -/

/-- Lexicographic (code-point) `<=` on character lists: Python string
comparison. -/
def lexLeChars : List Char → List Char → Bool
  | [], _ => true
  | _ :: _, [] => false
  | a :: as, b :: bs => if a = b then lexLeChars as bs else decide (a.val.toNat < b.val.toNat)

/-- Python `s <= t` on strings (used by `sorted`). -/
def strLeB (s t : String) : Bool := lexLeChars s.data t.data

/-- Python `s.split(",")` at the character-list level. -/
def splitOnCommaChars : List Char → List (List Char)
  | [] => [[]]
  | c :: cs =>
    if c = ',' then [] :: splitOnCommaChars cs
    else
      match splitOnCommaChars cs with
      | s :: ss => (c :: s) :: ss
      | [] => [[c]]

/-- Python `",".join(xs)` at the character-list level. -/
def joinOnCommaChars : List (List Char) → List Char
  | [] => []
  | [x] => x
  | x :: xs => x ++ ',' :: joinOnCommaChars xs

/-- Python `s.split(",")`. -/
def pySplitComma (s : String) : List String :=
  (splitOnCommaChars s.data).map fun l => ⟨l⟩

/-- Python `",".join(xs)`. -/
def pyJoinComma (xs : List String) : String :=
  ⟨joinOnCommaChars (xs.map String.data)⟩

/-- Python `s.split(c, 1)` when it yields two pieces: splits at the first
occurrence of `c`; `none` when `c` does not occur (where
`name, digest = s.split(c, 1)` raises `ValueError`). -/
def splitOnceAtChar (c : Char) : List Char → Option (List Char × List Char)
  | [] => none
  | x :: xs =>
    if x = c then some ([], xs)
    else
      match splitOnceAtChar c xs with
      | some (a, b) => some (x :: a, b)
      | none => none

/-- Python `s.startswith(p)` at the character-list level. -/
def isPrefixChars : List Char → List Char → Bool
  | [], _ => true
  | _ :: _, [] => false
  | a :: as, b :: bs => a = b && isPrefixChars as bs

/-! ## Sorting (Python `sorted` on a set of strings) -/

/-- The comparison relation handed to the sort. -/
def strLeRel (s t : String) : Prop := strLeB s t = true

instance : DecidableRel strLeRel := fun s t => instDecidableEqBool (strLeB s t) true

instance : IsTotal String strLeRel where
  total s t := by
    obtain ⟨a⟩ := s
    obtain ⟨b⟩ := t
    show lexLeChars a b = true ∨ lexLeChars b a = true
    induction a generalizing b with
    | nil => left; rfl
    | cons x xs ih =>
      cases b with
      | nil => right; rfl
      | cons y ys =>
        by_cases hxy : x = y
        · subst hxy
          simpa [lexLeChars] using ih ys
        · rcases Nat.lt_or_ge x.val.toNat y.val.toNat with h | h
          · left; simp [lexLeChars, hxy, h]
          · rcases Nat.lt_or_ge y.val.toNat x.val.toNat with h2 | h2
            · right; simp [lexLeChars, Ne.symm hxy, h2]
            · exact absurd (Char.eq_of_val_eq (UInt32.eq_of_toBitVec_eq
                (BitVec.eq_of_toNat_eq (Nat.le_antisymm h2 h)))) hxy

instance : IsTrans String strLeRel where
  trans s t u hst htu := by
    obtain ⟨a⟩ := s
    obtain ⟨b⟩ := t
    obtain ⟨c⟩ := u
    replace hst : lexLeChars a b = true := hst
    replace htu : lexLeChars b c = true := htu
    show lexLeChars a c = true
    induction a generalizing b c with
    | nil => rfl
    | cons x xs ih =>
      cases b with
      | nil => simp [lexLeChars] at hst
      | cons y ys =>
        cases c with
        | nil => simp [lexLeChars] at htu
        | cons z zs =>
          by_cases hxy : x = y
          · subst hxy
            simp only [lexLeChars, if_pos rfl] at hst
            by_cases hyz : x = z
            · subst hyz
              simp only [lexLeChars, if_pos rfl] at htu ⊢
              exact ih ys zs hst htu
            · simp only [lexLeChars, if_neg hyz] at htu ⊢
              exact htu
          · simp only [lexLeChars, if_neg hxy, decide_eq_true_eq] at hst
            by_cases hyz : y = z
            · subst hyz
              simp [lexLeChars, hxy, hst]
            · simp only [lexLeChars, if_neg hyz, decide_eq_true_eq] at htu
              have hxz : x.val.toNat < z.val.toNat := Nat.lt_trans hst htu
              have hne : x ≠ z := fun h => by
                subst h; exact absurd hxz (Nat.lt_irrefl _)
              simp [lexLeChars, hne, hxz]

instance : IsAntisymm String strLeRel where
  antisymm s t hst hts := by
    obtain ⟨a⟩ := s
    obtain ⟨b⟩ := t
    replace hst : lexLeChars a b = true := hst
    replace hts : lexLeChars b a = true := hts
    show String.mk a = String.mk b
    congr 1
    induction a generalizing b with
    | nil =>
      cases b with
      | nil => rfl
      | cons y ys => simp [lexLeChars] at hts
    | cons x xs ih =>
      cases b with
      | nil => simp [lexLeChars] at hst
      | cons y ys =>
        by_cases hxy : x = y
        · subst hxy
          simp only [lexLeChars, if_pos rfl] at hst hts
          exact congrArg (x :: ·) (ih ys hst hts)
        · simp only [lexLeChars, if_neg hxy, if_neg (Ne.symm hxy), decide_eq_true_eq]
            at hst hts
          exact absurd (Nat.lt_trans hst hts) (Nat.lt_irrefl _)

/-- Sort the underlying list of a multiset of strings by code-point
order.  Well defined because two sorted permutations agree. -/
def msort (s : Multiset String) : List String :=
  Quot.liftOn s (fun l => l.insertionSort strLeRel) fun a b hab => by
    exact List.eq_of_perm_of_sorted
      (((List.perm_insertionSort strLeRel a).trans hab).trans
        (List.perm_insertionSort strLeRel b).symm)
      (List.sorted_insertionSort strLeRel a) (List.sorted_insertionSort strLeRel b)

/-- Python `sorted(s)` for a set of strings. -/
def pysorted (S : Finset String) : List String := msort S.val

/-- Python `','.join(sorted(s))`. -/
def joinSorted (S : Finset String) : String := pyJoinComma (pysorted S)

/-- Python `set(v for v in s.split(",") if v)`: the version set parsed
out of a label value (`sync_node` lines 108 and 123). -/
def parseVersions (s : String) : Finset String :=
  ((pySplitComma s).filter fun v => v ≠ "").toFinset

/-! ## Data model and label keys -/

def channelsKey : String := "io.openshift.upgrades.graph.release.channels"

def nextAddKey : String := "io.openshift.upgrades.graph.next.add"

def nextRemoveKey : String := "io.openshift.upgrades.graph.next.remove"

def prevAddKey : String := "io.openshift.upgrades.graph.previous.add"

def prevRemoveKey : String := "io.openshift.upgrades.graph.previous.remove"

/-- Exceptions the script can raise: its own `ValueError`s, and
`KeyError` from unguarded dictionary/tar-member indexing. -/
inductive PyError where
  | valueError (msg : String)
  | keyError (key : String)
deriving DecidableEq

/-- A node JSON file as parsed (`json.load`), before `load_nodes`
attaches channel data: the fields the script reads. -/
structure NodeJson where
  version : String
  payload : String
  metadata : Option (List (String × String))
deriving DecidableEq

/-- A node dictionary after loading: `load_nodes` added `channels` (and
later rewrites `metadata`), `load_edges` may add `previous`. -/
structure LoadedNode where
  version : String
  payload : String
  channels : Finset String
  metadata : Option (List (String × String))
  previous : Option (Finset String)
deriving DecidableEq

/-- An edge JSON file as parsed: the fields `load_edges` reads. -/
structure EdgeJson where
  fromVersion : String
  toVersion : String
  channels : List String
deriving DecidableEq

/-- Python `d[k] = v` on a string-keyed dict viewed as an association
list. -/
def dictSet (m : List (String × String)) (k v : String) : List (String × String) :=
  (m.filter fun p => p.1 ≠ k) ++ [(k, v)]

/-! ## load_nodes (lines 45-68) -/

/-- One iteration of the `load_nodes` file loop (lines 58-63): if the
version was already seen, only add this file's channel to the existing
node; otherwise store the node with a singleton channel set. -/
def load_nodes_step (nodes : String → Option LoadedNode) (file : String × NodeJson) :
    String → Option LoadedNode :=
  match nodes file.2.version with
  | some seen => fun v =>
      if v = file.2.version then some { seen with channels := insert file.1 seen.channels }
      else nodes v
  | none => fun v =>
      if v = file.2.version then
        some { version := file.2.version, payload := file.2.payload,
               channels := {file.1}, metadata := file.2.metadata, previous := none }
      else nodes v

/-- The final `load_nodes` loop (lines 64-67): ensure a metadata dict
exists and set the release-channels key to the sorted comma-joined
channel set. -/
def finalizeNode (n : LoadedNode) : LoadedNode :=
  { n with metadata := some (dictSet (n.metadata.getD []) channelsKey (joinSorted n.channels)) }

/-- `load_nodes`: the input is the walked file list as
(channel directory basename, parsed JSON) pairs in walk order. -/
def load_nodes (files : List (String × NodeJson)) : String → Option LoadedNode :=
  fun v => ((files.foldl load_nodes_step fun _ => none) v).map finalizeNode

/-! ## load_edges (lines 17-42) -/

/-- State threaded through the `load_edges` file loop: the keys of the
`edges` dict and the (mutable) nodes dict. -/
structure EdgesState where
  edges : Finset (String × String)
  nodes : String → Option LoadedNode

def dupEdgeMsg : String :=
  "duplicate edges for \x7b\x7d (Quay labels do not support channel granularity)"

def channelMismatchMsg : String :=
  "edge channels \x7b\x7d differ from node channels \x7b\x7d (Quay labels do not support channel granularity)"

/-- Lines 38-41: add `edge["from"]` to the `to` node's `previous` set,
creating the set when the key is absent. -/
def recordPrevious (to_node : LoadedNode) (fromV : String) : LoadedNode :=
  match to_node.previous with
  | some p => { to_node with previous := some (insert fromV p) }
  | none => { to_node with previous := some {fromV} }

/-- One iteration of the `load_edges` file loop (lines 29-41): duplicate
(`from`,`to`) check, unguarded node lookups, channel-intersection check,
then record the predecessor on the `to` node.  (The Python code stores
`edges[edge_key] = edge` before the node lookups, but a raised exception
aborts the whole load, so the stored key is observable only on the
success path, where it is recorded here.) -/
def load_edges_step (st : EdgesState) (edge : EdgeJson) : Except PyError EdgesState :=
  if (edge.fromVersion, edge.toVersion) ∈ st.edges then
    .error (.valueError dupEdgeMsg)
  else
    match st.nodes edge.fromVersion with
    | none => .error (.keyError edge.fromVersion)
    | some from_node =>
      match st.nodes edge.toVersion with
      | none => .error (.keyError edge.toVersion)
      | some to_node =>
        if edge.channels.toFinset ≠ from_node.channels ∩ to_node.channels then
          .error (.valueError channelMismatchMsg)
        else
          .ok { edges := insert (edge.fromVersion, edge.toVersion) st.edges,
                nodes := fun v =>
                  if v = edge.toVersion then some (recordPrevious to_node edge.fromVersion)
                  else st.nodes v }

/-- The `load_edges` file loop over the walked edge files. -/
def load_edges_list (st : EdgesState) : List EdgeJson → Except PyError EdgesState
  | [] => .ok st
  | e :: es =>
    match load_edges_step st e with
    | .error err => .error err
    | .ok st' => load_edges_list st' es

/-- `load_edges`: starts with an empty `edges` dict and returns the
updated nodes dict. -/
def load_edges (files : List EdgeJson) (nodes : String → Option LoadedNode) :
    Except PyError (String → Option LoadedNode) :=
  (load_edges_list ⟨∅, nodes⟩ files).map (·.nodes)

/-! ## sync_node (lines 78-155), as a pure mutation list -/

/-- A label mutation decided by `sync_node`: `delete_label` or
`post_label` on one key. -/
inductive Mutation where
  | del (key : String)
  | post (key : String) (value : String)
deriving DecidableEq

def Mutation.key : Mutation → String
  | .del k => k
  | .post k _ => k

/-- The explicit inputs of one `sync_node` call: the node's fields read
by the function, the remote labels from `get_labels` (key to value), and
the `previous` list of the remote-published release metadata from
`get_release_metadata` (fetched lazily in the script; passed here as a
set, with `previous` itself as `node.get("previous", set())`). -/
structure SyncInput where
  version : String
  channelsMeta : String
  previous : Finset String
  metaPrevious : Finset String
  labels : String → Option String

/-- Lines 81-97: the release-channels label step.  `remoteVal` is
`labels.get(key, \x7b\x7d).get("value", "")`; a mismatching non-empty value is
deleted and `channels` set to `None`; a falsy `channels` is re-posted. -/
def channelsStep (desired remoteVal : String) : List Mutation :=
  (if remoteVal ≠ "" ∧ remoteVal ≠ desired then [Mutation.del channelsKey] else []) ++
  (if (remoteVal ≠ "" ∧ remoteVal ≠ desired) ∨ remoteVal = "" then
    [Mutation.post channelsKey desired]
  else [])

/-- Lines 107-136, one of the two symmetric halves: compare the computed
`want` set with the set parsed from the current label value; on mismatch
delete the label if present and re-post the sorted join when `want` is
non-empty. -/
def prevPairStep (key : String) (want : Finset String) (labels : String → Option String) :
    List Mutation :=
  if parseVersions ((labels key).getD "") ≠ want then
    (if (labels key).isSome then [Mutation.del key] else []) ++
    (if want ≠ ∅ then [Mutation.post key (joinSorted want)] else [])
  else []

/-- Lines 137-155: the branch for a node without declared incoming
edges. -/
def previousEmptyStep (n : SyncInput) : List Mutation :=
  (if (n.labels prevAddKey).isSome then [Mutation.del prevAddKey] else []) ++
  (if (n.labels prevRemoveKey).getD "" ≠ "*" then
    (if n.metaPrevious ≠ ∅ then
      (if (n.labels prevRemoveKey).isSome then [Mutation.del prevRemoveKey] else []) ++
      [Mutation.post prevRemoveKey "*"]
    else [])
  else [])

/-- `sync_node` (lines 78-155) as the ordered list of label mutations it
issues: channels step, purge of the deprecated `next.*` labels, then the
predecessor-label logic. -/
def sync_node (n : SyncInput) : List Mutation :=
  channelsStep n.channelsMeta ((n.labels channelsKey).getD "") ++
  (if (n.labels nextAddKey).isSome then [Mutation.del nextAddKey] else []) ++
  (if (n.labels nextRemoveKey).isSome then [Mutation.del nextRemoveKey] else []) ++
  (if n.previous ≠ ∅ then
    prevPairStep prevRemoveKey (n.metaPrevious \ n.previous) n.labels ++
    prevPairStep prevAddKey (n.previous \ n.metaPrevious) n.labels
  else previousEmptyStep n)

/-- The effect of one mutation on the remote label state. -/
def applyMutation (labels : String → Option String) : Mutation → String → Option String
  | .del k => fun k' => if k' = k then none else labels k'
  | .post k v => fun k' => if k' = k then some v else labels k'

/-- The effect of a mutation list, applied in order. -/
def applyMutations (labels : String → Option String) (ms : List Mutation) :
    String → Option String :=
  ms.foldl applyMutation labels

/-- The mutations of a list that touch one label key. -/
def mutsFor (k : String) (ms : List Mutation) : List Mutation :=
  ms.filter fun m => m.key = k

/-! ## manifest_uri, delete_label, post_label (lines 158-194) -/

/-- `manifest_uri` (lines 158-165): split the pullspec at the first `@`
(raising `ValueError` when `@` is absent), require the `quay.io/`
registry, and build the manifest API URI. -/
def manifest_uri (payload : String) : Except PyError String :=
  match splitOnceAtChar '@' payload.data with
  | none => .error (.valueError "not enough values to unpack (expected 2, got 1)")
  | some (nm, dg) =>
    if isPrefixChars "quay.io/".data nm then
      .ok ("https://quay.io/api/v1/repository/" ++ (⟨nm.drop 8⟩ : String) ++
        "/manifest/" ++ (⟨dg⟩ : String))
    else .error (.valueError ("non-Quay pullspec: " ++ payload))

/-- A mutating HTTP call actually sent over the network. -/
inductive NetCall where
  | httpDelete (uri : String)
  | httpPost (uri : String) (key : String) (value : String)
deriving DecidableEq

/-- What a label-writer call did: the lines it printed and the network
calls it made. -/
structure Effect where
  logs : List String
  calls : List NetCall
deriving DecidableEq

/-- Python truthiness of the `--token` argument: `if not token`. -/
def tokenFalsy : Option String → Bool
  | none => true
  | some t => decide (t = "")

/-- `delete_label` (lines 175-183): print the intended action, then in
dry-run mode (falsy token) return without a network call. -/
def delete_label (version payload labelKey : String) (token : Option String) :
    Except PyError Effect :=
  match manifest_uri payload with
  | .error e => .error e
  | .ok mu =>
    let uri := mu ++ "/labels/" ++ labelKey
    .ok { logs := [version ++ " delete " ++ uri],
          calls := if tokenFalsy token then [] else [NetCall.httpDelete uri] }

/-- `post_label` (lines 186-194): print the intended action, then in
dry-run mode (falsy token) return without a network call. -/
def post_label (version payload labelKey labelValue : String) (token : Option String) :
    Except PyError Effect :=
  match manifest_uri payload with
  | .error e => .error e
  | .ok mu =>
    let uri := mu ++ "/labels"
    .ok { logs := [version ++ " post " ++ uri],
          calls := if tokenFalsy token then [] else [NetCall.httpPost uri labelKey labelValue] }

/-! ## get_release_metadata (lines 197-217) -/

/-- The release-metadata JSON: the only field the script reads is
`previous` (absent means `set()` after `meta.get("previous", set())`). -/
structure ReleaseMeta where
  previous : Option (List String)
deriving DecidableEq

/-- One manifest layer: its blob digest and, if the gzipped tar holds a
member at the fixed path `release-manifests/release-metadata`, that
member's parsed JSON content. -/
structure Layer where
  blob_digest : String
  metadataFile : Option ReleaseMeta
deriving DecidableEq

def releaseMetadataPath : String := "release-manifests/release-metadata"

/-- The layer loop of `get_release_metadata` (lines 201-217), already
given `reversed(data["layers"])`.  `nm` is `pullspec.split("@", 1)[0]`.
The loop body ends in an unconditional `return`, and
`tar.extractfile(name)` raises `KeyError` when the member is missing, so
no iteration ever advances past the first (most recently added) layer;
the final `ValueError` is only reachable with an empty layer list. -/
def scanLayers (version : String) (nm : List Char) : List Layer → Except PyError ReleaseMeta
  | [] => .error (.valueError ("no release-metadata in " ++ version ++ " layers"))
  | layer :: _ =>
    if isPrefixChars "quay.io/".data nm then
      match layer.metadataFile with
      | some meta => .ok meta
      | none => .error (.keyError releaseMetadataPath)
    else .error (.valueError ("non-Quay pullspec: "))

/-- `pullspec.split("@", 1)[0]`: the whole string when `@` is absent. -/
def nameBeforeAt (l : List Char) : List Char :=
  match splitOnceAtChar '@' l with
  | some (nm, _) => nm
  | none => l

/-- `get_release_metadata` (lines 197-217): fetch the manifest (the
`manifest_uri` call validates the pullspec first) and scan the reversed
layer list. -/
def get_release_metadata (version payload : String) (layers : List Layer) :
    Except PyError ReleaseMeta :=
  match manifest_uri payload with
  | .error e => .error e
  | .ok _ => scanLayers version (nameBeforeAt payload.data) layers.reverse

/-! ## Concrete inputs used by the claim theorems -/

/-- The scenario of the spec's fourth testable property: remote
`previous.add` label `"1.0.1"`, declared previous `{1.0.1, 1.0.2}`,
remote-published previous `{1.0.1}` (channels label already correct). -/
def addScenario : SyncInput :=
  { version := "1.0.2"
    channelsMeta := "stable"
    previous := {"1.0.1", "1.0.2"}
    metaPrevious := {"1.0.1"}
    labels := fun k =>
      if k = channelsKey then some "stable"
      else if k = prevAddKey then some "1.0.1"
      else none }

/-- The scenario of the spec's fifth testable property: empty declared
previous, remote-published previous `{1.0.0}`, no current
`previous.remove` label. -/
def starScenario : SyncInput :=
  { version := "1.0.0"
    channelsMeta := "stable"
    previous := ∅
    metaPrevious := {"1.0.0"}
    labels := fun k => if k = channelsKey then some "stable" else none }

/-- A remote state whose channels label is present but carries the empty
string as its value. -/
def emptyChannelsScenario : SyncInput :=
  { version := "1.0.0"
    channelsMeta := "stable"
    previous := ∅
    metaPrevious := ∅
    labels := fun k => if k = channelsKey then some "" else none }

/-- A node whose declared predecessor version contains a comma. -/
def commaScenario : SyncInput :=
  { version := "1.0.0"
    channelsMeta := "stable"
    previous := {"a,b"}
    metaPrevious := ∅
    labels := fun k => if k = channelsKey then some "stable" else none }

/-- A well-formed node used to witness the amended idempotence claim. -/
def idemScenario : SyncInput :=
  { version := "1.0.2"
    channelsMeta := "fast,stable"
    previous := {"1.0.1", "1.0.2"}
    metaPrevious := {"1.0.0", "1.0.1"}
    labels := fun k => if k = prevRemoveKey then some "0.9.9" else none }

/-- Two channel files for the same version in channels `stable` and
`fast`. -/
def twoChannelFiles : List (String × NodeJson) :=
  [("stable", ⟨"1.0.0", "quay.io/x/y@sha256:0", none⟩),
   ("fast", ⟨"1.0.0", "quay.io/x/y@sha256:0", none⟩)]

/-- A two-node graph for the edge-loading scenarios. -/
def twoNodesMap : String → Option LoadedNode :=
  fun v =>
    if v = "1.0.0" then some ⟨"1.0.0", "quay.io/x/y@sha256:0", {"stable"}, some [], none⟩
    else if v = "1.0.1" then
      some ⟨"1.0.1", "quay.io/x/y@sha256:1", {"stable", "fast"}, some [], none⟩
    else none

/-- Layers of a manifest whose most recently added layer lacks the
release-metadata file while an earlier layer contains it. -/
def geminateLayers : List Layer :=
  [⟨"sha256:a", some ⟨some ["1.0.0"]⟩⟩, ⟨"sha256:b", none⟩]

/-! # Theorems -/

/-! ## Generic helper lemmas -/

theorem mem_msort {s : Multiset String} {a : String} : a ∈ msort s ↔ a ∈ s := by
  induction s using Quot.inductionOn with
  | h l => exact (List.perm_insertionSort strLeRel l).mem_iff

theorem mem_pysorted {S : Finset String} {a : String} : a ∈ pysorted S ↔ a ∈ S :=
  mem_msort

theorem pysorted_ne_nil {S : Finset String} (h : S ≠ ∅) : pysorted S ≠ [] := by
  obtain ⟨a, ha⟩ := Finset.nonempty_iff_ne_empty.mpr h
  intro hnil
  exact absurd (mem_pysorted.mpr ha) (by simp [hnil])

theorem splitOnCommaChars_ne_nil (l : List Char) : splitOnCommaChars l ≠ [] := by
  cases l with
  | nil => simp [splitOnCommaChars]
  | cons c cs =>
    unfold splitOnCommaChars
    split
    · simp
    · split <;> simp

theorem splitOnCommaChars_append (x cs : List Char) (hx : ∀ c ∈ x, c ≠ ',') :
    splitOnCommaChars (x ++ cs) = (splitOnCommaChars cs).modifyHead (x ++ ·) := by
  induction x with
  | nil =>
    cases h : splitOnCommaChars cs with
    | nil => exact absurd h (splitOnCommaChars_ne_nil cs)
    | cons s ss => simp [List.modifyHead, h]
  | cons c x' ih =>
    have hc : c ≠ ',' := hx c (by simp)
    have hx' : ∀ d ∈ x', d ≠ ',' := fun d hd => hx d (by simp [hd])
    show splitOnCommaChars (c :: (x' ++ cs)) = _
    rw [splitOnCommaChars, if_neg hc, ih hx']
    cases h : splitOnCommaChars cs with
    | nil => exact absurd h (splitOnCommaChars_ne_nil cs)
    | cons s ss => simp [List.modifyHead]

theorem splitOnCommaChars_join (ls : List (List Char)) (hne : ls ≠ [])
    (hc : ∀ l ∈ ls, ∀ c ∈ l, c ≠ ',') :
    splitOnCommaChars (joinOnCommaChars ls) = ls := by
  induction ls with
  | nil => exact absurd rfl hne
  | cons x ls' ih =>
    cases ls' with
    | nil =>
      show splitOnCommaChars (joinOnCommaChars [x]) = [x]
      have : joinOnCommaChars [x] = x ++ [] := by simp [joinOnCommaChars]
      rw [this, splitOnCommaChars_append x [] (hc x (by simp))]
      simp [splitOnCommaChars, List.modifyHead]
    | cons y ls'' =>
      show splitOnCommaChars (x ++ ',' :: joinOnCommaChars (y :: ls'')) = _
      rw [splitOnCommaChars_append x _ (hc x (by simp))]
      have : splitOnCommaChars (',' :: joinOnCommaChars (y :: ls'')) =
          [] :: splitOnCommaChars (joinOnCommaChars (y :: ls'')) := by
        rw [splitOnCommaChars, if_pos rfl]
      rw [this, ih (by simp) (fun l hl c hcl => hc l (by simp [hl]) c hcl)]
      simp [List.modifyHead]

theorem pySplitComma_pyJoinComma (xs : List String) (hne : xs ≠ [])
    (hc : ∀ v ∈ xs, ',' ∉ v.data) :
    pySplitComma (pyJoinComma xs) = xs := by
  unfold pySplitComma pyJoinComma
  have hdata : (⟨joinOnCommaChars (xs.map String.data)⟩ : String).data =
      joinOnCommaChars (xs.map String.data) := rfl
  rw [hdata, splitOnCommaChars_join (xs.map String.data)
    (by simpa using hne)
    (by
      intro l hl c hcl
      obtain ⟨v, hv, rfl⟩ := List.mem_map.mp hl
      intro hcomma
      subst hcomma
      exact hc v hv hcl)]
  have : xs.map (String.mk ∘ String.data) = xs.map id :=
    List.map_congr_left fun v _ => rfl
  rw [List.map_map, this, List.map_id]

theorem parseVersions_joinSorted (w : Finset String) (hw : w ≠ ∅)
    (helem : ∀ v ∈ w, v ≠ "" ∧ ',' ∉ v.data) :
    parseVersions (joinSorted w) = w := by
  unfold parseVersions joinSorted
  rw [pySplitComma_pyJoinComma (pysorted w) (pysorted_ne_nil hw)
    (fun v hv => (helem v (mem_pysorted.mp hv)).2)]
  rw [List.filter_eq_self.mpr (by
    intro v hv
    simpa using (helem v (mem_pysorted.mp hv)).1)]
  ext a
  simp [List.mem_toFinset, mem_pysorted]

theorem parseVersions_empty : parseVersions "" = ∅ := rfl

/-! ## Mutation bookkeeping -/

theorem applyMutation_ne (L : String → Option String) (m : Mutation) (k : String)
    (h : m.key ≠ k) : applyMutation L m k = L k := by
  cases m with
  | del k' => exact if_neg fun hk => h hk.symm
  | post k' v => exact if_neg fun hk => h hk.symm

theorem applyMutations_append (L : String → Option String) (ms ms' : List Mutation) :
    applyMutations L (ms ++ ms') = applyMutations (applyMutations L ms) ms' :=
  List.foldl_append applyMutation L ms ms'

theorem applyMutations_ne (L : String → Option String) (ms : List Mutation) (k : String)
    (h : ∀ m ∈ ms, m.key ≠ k) : applyMutations L ms k = L k := by
  induction ms generalizing L with
  | nil => rfl
  | cons m ms' ih =>
    show applyMutations (applyMutation L m) ms' k = L k
    rw [ih _ fun m' hm' => h m' (by simp [hm']), applyMutation_ne L m k (h m (by simp))]

theorem mutsFor_append (k : String) (a b : List Mutation) :
    mutsFor k (a ++ b) = mutsFor k a ++ mutsFor k b :=
  List.filter_append a b

theorem mutsFor_nil_of_keys (k : String) (ms : List Mutation)
    (h : ∀ m ∈ ms, m.key ≠ k) : mutsFor k ms = [] := by
  rw [mutsFor, List.filter_eq_nil_iff]
  intro m hm
  simpa using h m hm

theorem mutsFor_self_of_keys (k : String) (ms : List Mutation)
    (h : ∀ m ∈ ms, m.key = k) : mutsFor k ms = ms := by
  rw [mutsFor, List.filter_eq_self.mpr]
  intro m hm
  simpa using h m hm

theorem mem_ite_singleton {c : Prop} [Decidable c] {m a : Mutation}
    (h : m ∈ if c then [a] else []) : m = a := by
  split at h
  · simpa using h
  · simp at h

theorem channelsStep_keys (d r : String) : ∀ m ∈ channelsStep d r, m.key = channelsKey := by
  intro m hm
  unfold channelsStep at hm
  rcases List.mem_append.mp hm with h | h
  · rw [mem_ite_singleton h]; rfl
  · rw [mem_ite_singleton h]; rfl

theorem prevPairStep_keys (k : String) (w : Finset String) (L : String → Option String) :
    ∀ m ∈ prevPairStep k w L, m.key = k := by
  intro m hm
  unfold prevPairStep at hm
  split at hm
  · rcases List.mem_append.mp hm with h | h
    · rw [mem_ite_singleton h]; rfl
    · rw [mem_ite_singleton h]; rfl
  · simp at hm

theorem previousEmptyStep_keys (n : SyncInput) :
    ∀ m ∈ previousEmptyStep n, m.key = prevAddKey ∨ m.key = prevRemoveKey := by
  intro m hm
  unfold previousEmptyStep at hm
  rcases List.mem_append.mp hm with h | h
  · left; rw [mem_ite_singleton h]; rfl
  · right
    split at h
    · split at h
      · rcases List.mem_append.mp h with h2 | h2
        · rw [mem_ite_singleton h2]; rfl
        · simp only [List.mem_singleton] at h2
          rw [h2]; rfl
      · simp at h
    · simp at h

theorem previousStep_keys (n : SyncInput) :
    ∀ m ∈ (if n.previous ≠ ∅ then
        prevPairStep prevRemoveKey (n.metaPrevious \ n.previous) n.labels ++
        prevPairStep prevAddKey (n.previous \ n.metaPrevious) n.labels
      else previousEmptyStep n),
      m.key = prevAddKey ∨ m.key = prevRemoveKey := by
  intro m hm
  split at hm
  · rcases List.mem_append.mp hm with h | h
    · right; exact prevPairStep_keys _ _ _ m h
    · left; exact prevPairStep_keys _ _ _ m h
  · exact previousEmptyStep_keys n m hm

/-! ## The label state after one sync_node run, per key -/

theorem sync_node_decomp (n : SyncInput) :
    sync_node n =
      channelsStep n.channelsMeta ((n.labels channelsKey).getD "") ++
      ((if (n.labels nextAddKey).isSome then [Mutation.del nextAddKey] else []) ++
       ((if (n.labels nextRemoveKey).isSome then [Mutation.del nextRemoveKey] else []) ++
        (if n.previous ≠ ∅ then
          prevPairStep prevRemoveKey (n.metaPrevious \ n.previous) n.labels ++
          prevPairStep prevAddKey (n.previous \ n.metaPrevious) n.labels
        else previousEmptyStep n))) := by
  unfold sync_node
  simp [List.append_assoc]

theorem applied_channelsStep (L : String → Option String) (d : String) :
    applyMutations L (channelsStep d ((L channelsKey).getD "")) channelsKey = some d := by
  unfold channelsStep
  by_cases h0 : (L channelsKey).getD "" = ""
  · rw [if_neg (by simp [h0]), if_pos (Or.inr h0)]
    simp [applyMutations, applyMutation]
  · by_cases hd : (L channelsKey).getD "" = d
    · have hd0 : ¬d = "" := fun hde => h0 (hd.trans hde)
      rw [if_neg (by simp [hd]), if_neg (by simp [hd, hd0])]
      show L channelsKey = some d
      cases hL : L channelsKey with
      | none => rw [hL] at h0; simp at h0
      | some v => rw [hL] at hd; simpa using congrArg some hd
    · rw [if_pos ⟨h0, hd⟩, if_pos (Or.inl ⟨h0, hd⟩)]
      simp [applyMutations, applyMutation]

theorem channelsStep_noop (d : String) (hd : d ≠ "") : channelsStep d d = [] := by
  unfold channelsStep
  rw [if_neg (by simp), if_neg (by simp [hd])]
  rfl

theorem applied_del_if_present (L1 L : String → Option String) (k : String)
    (hbase : L1 k = L k) :
    applyMutations L1 (if (L k).isSome then [Mutation.del k] else []) k = none := by
  cases hL : L k with
  | none => rw [if_neg (by simp [hL])]; exact hbase.trans hL
  | some v =>
    rw [if_pos (by simp [hL])]
    simp [applyMutations, applyMutation]

theorem applied_prevPairStep (L1 L : String → Option String) (k : String) (w : Finset String)
    (hbase : L1 k = L k) :
    applyMutations L1 (prevPairStep k w L) k =
      if parseVersions ((L k).getD "") ≠ w then
        (if w ≠ ∅ then some (joinSorted w) else none)
      else L k := by
  unfold prevPairStep
  by_cases hne : parseVersions ((L k).getD "") ≠ w
  · rw [if_pos hne, if_pos hne]
    by_cases hw : w ≠ ∅
    · rw [if_pos hw, if_pos hw, applyMutations_append]
      simp [applyMutations, applyMutation]
    · rw [if_neg hw, if_neg hw, List.append_nil]
      exact applied_del_if_present L1 L k hbase
  · rw [if_neg hne, if_neg hne]
    exact hbase

theorem applied_sync_channels (n : SyncInput) :
    applyMutations n.labels (sync_node n) channelsKey = some n.channelsMeta := by
  rw [sync_node_decomp, applyMutations_append, applyMutations_append, applyMutations_append]
  rw [applyMutations_ne _ _ channelsKey (fun m hm => by
    rcases previousStep_keys n m hm with h | h <;> rw [h] <;> decide)]
  rw [applyMutations_ne _ _ channelsKey (fun m hm => by
    rw [mem_ite_singleton hm]; decide)]
  rw [applyMutations_ne _ _ channelsKey (fun m hm => by
    rw [mem_ite_singleton hm]; decide)]
  exact applied_channelsStep n.labels n.channelsMeta

theorem applied_sync_base (n : SyncInput) (k : String) (hk1 : k ≠ channelsKey)
    (hk2 : k ≠ nextAddKey) (hk3 : k ≠ nextRemoveKey) :
    applyMutations n.labels
      (channelsStep n.channelsMeta ((n.labels channelsKey).getD "") ++
        ((if (n.labels nextAddKey).isSome then [Mutation.del nextAddKey] else []) ++
         (if (n.labels nextRemoveKey).isSome then [Mutation.del nextRemoveKey] else []))) k
      = n.labels k := by
  rw [applyMutations_append, applyMutations_append]
  rw [applyMutations_ne _ _ k (fun m hm => by rw [mem_ite_singleton hm]; exact hk3.symm)]
  rw [applyMutations_ne _ _ k (fun m hm => by rw [mem_ite_singleton hm]; exact hk2.symm)]
  exact applyMutations_ne _ _ k fun m hm => by rw [channelsStep_keys _ _ m hm]; exact hk1.symm

theorem sync_node_decomp2 (n : SyncInput) :
    sync_node n =
      (channelsStep n.channelsMeta ((n.labels channelsKey).getD "") ++
        ((if (n.labels nextAddKey).isSome then [Mutation.del nextAddKey] else []) ++
         (if (n.labels nextRemoveKey).isSome then [Mutation.del nextRemoveKey] else []))) ++
      (if n.previous ≠ ∅ then
        prevPairStep prevRemoveKey (n.metaPrevious \ n.previous) n.labels ++
        prevPairStep prevAddKey (n.previous \ n.metaPrevious) n.labels
      else previousEmptyStep n) := by
  unfold sync_node
  simp [List.append_assoc]

theorem applied_sync_nextAdd (n : SyncInput) :
    applyMutations n.labels (sync_node n) nextAddKey = none := by
  rw [sync_node_decomp, applyMutations_append, applyMutations_append, applyMutations_append]
  rw [applyMutations_ne _ _ nextAddKey (fun m hm => by
    rcases previousStep_keys n m hm with h | h <;> rw [h] <;> decide)]
  rw [applyMutations_ne _ _ nextAddKey (fun m hm => by
    rw [mem_ite_singleton hm]; decide)]
  exact applied_del_if_present _ n.labels nextAddKey
    (applyMutations_ne _ _ nextAddKey fun m hm => by
      rw [channelsStep_keys _ _ m hm]; decide)

theorem applied_sync_nextRemove (n : SyncInput) :
    applyMutations n.labels (sync_node n) nextRemoveKey = none := by
  rw [sync_node_decomp, applyMutations_append, applyMutations_append, applyMutations_append]
  rw [applyMutations_ne _ _ nextRemoveKey (fun m hm => by
    rcases previousStep_keys n m hm with h | h <;> rw [h] <;> decide)]
  exact applied_del_if_present _ n.labels nextRemoveKey (by
    rw [applyMutations_ne _ _ nextRemoveKey (fun m hm => by
      rw [mem_ite_singleton hm]; decide)]
    exact applyMutations_ne _ _ nextRemoveKey fun m hm => by
      rw [channelsStep_keys _ _ m hm]; decide)

theorem applied_sync_prevRemove (n : SyncInput) (hp : n.previous ≠ ∅) :
    applyMutations n.labels (sync_node n) prevRemoveKey =
      if parseVersions ((n.labels prevRemoveKey).getD "") ≠ n.metaPrevious \ n.previous then
        (if n.metaPrevious \ n.previous ≠ ∅ then
          some (joinSorted (n.metaPrevious \ n.previous))
        else none)
      else n.labels prevRemoveKey := by
  rw [sync_node_decomp2, applyMutations_append, if_pos hp, applyMutations_append]
  rw [applyMutations_ne _ _ prevRemoveKey (fun m hm => by
    rw [prevPairStep_keys _ _ _ m hm]; decide)]
  exact applied_prevPairStep _ n.labels prevRemoveKey _
    (applied_sync_base n prevRemoveKey (by decide) (by decide) (by decide))

theorem applied_sync_prevAdd (n : SyncInput) (hp : n.previous ≠ ∅) :
    applyMutations n.labels (sync_node n) prevAddKey =
      if parseVersions ((n.labels prevAddKey).getD "") ≠ n.previous \ n.metaPrevious then
        (if n.previous \ n.metaPrevious ≠ ∅ then
          some (joinSorted (n.previous \ n.metaPrevious))
        else none)
      else n.labels prevAddKey := by
  rw [sync_node_decomp2, applyMutations_append, if_pos hp, applyMutations_append]
  exact applied_prevPairStep _ n.labels prevAddKey _ (by
    rw [applyMutations_ne _ _ prevAddKey (fun m hm => by
      rw [prevPairStep_keys _ _ _ m hm]; decide)]
    exact applied_sync_base n prevAddKey (by decide) (by decide) (by decide))

theorem previousEmptyStep_decomp (n : SyncInput) :
    previousEmptyStep n =
      (if (n.labels prevAddKey).isSome then [Mutation.del prevAddKey] else []) ++
      (if (n.labels prevRemoveKey).getD "" ≠ "*" then
        (if n.metaPrevious ≠ ∅ then
          (if (n.labels prevRemoveKey).isSome then [Mutation.del prevRemoveKey] else []) ++
          [Mutation.post prevRemoveKey "*"]
        else [])
      else []) := rfl

theorem previousEmptyStep_snd_keys (n : SyncInput) :
    ∀ m ∈ (if (n.labels prevRemoveKey).getD "" ≠ "*" then
        (if n.metaPrevious ≠ ∅ then
          (if (n.labels prevRemoveKey).isSome then [Mutation.del prevRemoveKey] else []) ++
          [Mutation.post prevRemoveKey "*"]
        else [])
      else []), m.key = prevRemoveKey := by
  intro m hm
  split at hm
  · split at hm
    · rcases List.mem_append.mp hm with h | h
      · rw [mem_ite_singleton h]; rfl
      · simp only [List.mem_singleton] at h
        rw [h]; rfl
    · simp at hm
  · simp at hm

theorem applied_previousEmptyStep_add (n : SyncInput) (L1 : String → Option String)
    (hbase : L1 prevAddKey = n.labels prevAddKey) :
    applyMutations L1 (previousEmptyStep n) prevAddKey = none := by
  rw [previousEmptyStep_decomp, applyMutations_append]
  rw [applyMutations_ne _ _ prevAddKey (fun m hm => by
    rw [previousEmptyStep_snd_keys n m hm]; decide)]
  exact applied_del_if_present L1 n.labels prevAddKey hbase

theorem applied_previousEmptyStep_remove (n : SyncInput) (L1 : String → Option String)
    (hbase : L1 prevRemoveKey = n.labels prevRemoveKey) :
    applyMutations L1 (previousEmptyStep n) prevRemoveKey =
      if (n.labels prevRemoveKey).getD "" ≠ "*" ∧ n.metaPrevious ≠ ∅ then some "*"
      else n.labels prevRemoveKey := by
  rw [previousEmptyStep_decomp, applyMutations_append]
  have hfst : applyMutations L1
      (if (n.labels prevAddKey).isSome then [Mutation.del prevAddKey] else [])
      prevRemoveKey = L1 prevRemoveKey :=
    applyMutations_ne _ _ prevRemoveKey fun m hm => by rw [mem_ite_singleton hm]; decide
  by_cases hv : (n.labels prevRemoveKey).getD "" ≠ "*"
  · by_cases hmp : n.metaPrevious ≠ ∅
    · have hand : (n.labels prevRemoveKey).getD "" ≠ "*" ∧ n.metaPrevious ≠ ∅ := ⟨hv, hmp⟩
      rw [if_pos hv, if_pos hmp, if_pos hand, applyMutations_append]
      simp [applyMutations, applyMutation]
    · have hand : ¬((n.labels prevRemoveKey).getD "" ≠ "*" ∧ n.metaPrevious ≠ ∅) :=
        fun h => hmp h.2
      rw [if_pos hv, if_neg hmp, if_neg hand]
      exact hfst.trans hbase
  · have hand : ¬((n.labels prevRemoveKey).getD "" ≠ "*" ∧ n.metaPrevious ≠ ∅) :=
      fun h => hv h.1
    rw [if_neg hv, if_neg hand]
    exact hfst.trans hbase

theorem applied_sync_prevAdd_empty (n : SyncInput) (hp : ¬n.previous ≠ ∅) :
    applyMutations n.labels (sync_node n) prevAddKey = none := by
  rw [sync_node_decomp2, applyMutations_append, if_neg hp]
  exact applied_previousEmptyStep_add n _
    (applied_sync_base n prevAddKey (by decide) (by decide) (by decide))

theorem applied_sync_prevRemove_empty (n : SyncInput) (hp : ¬n.previous ≠ ∅) :
    applyMutations n.labels (sync_node n) prevRemoveKey =
      if (n.labels prevRemoveKey).getD "" ≠ "*" ∧ n.metaPrevious ≠ ∅ then some "*"
      else n.labels prevRemoveKey := by
  rw [sync_node_decomp2, applyMutations_append, if_neg hp]
  exact applied_previousEmptyStep_remove n _
    (applied_sync_base n prevRemoveKey (by decide) (by decide) (by decide))

theorem mutsFor_sync_base_nil (n : SyncInput) (k : String) (hk1 : k ≠ channelsKey)
    (hk2 : k ≠ nextAddKey) (hk3 : k ≠ nextRemoveKey) :
    mutsFor k
      (channelsStep n.channelsMeta ((n.labels channelsKey).getD "") ++
        ((if (n.labels nextAddKey).isSome then [Mutation.del nextAddKey] else []) ++
         (if (n.labels nextRemoveKey).isSome then [Mutation.del nextRemoveKey] else []))) = [] := by
  rw [mutsFor_append, mutsFor_append]
  rw [mutsFor_nil_of_keys k _ (fun m hm => by rw [channelsStep_keys _ _ m hm]; exact hk1.symm)]
  rw [mutsFor_nil_of_keys k _ (fun m hm => by rw [mem_ite_singleton hm]; exact hk2.symm)]
  rw [mutsFor_nil_of_keys k _ (fun m hm => by rw [mem_ite_singleton hm]; exact hk3.symm)]
  rfl

/-- C1: for a node with a non-empty declared `previous` set, the
reconciler computes `want_removed = remote_previous - declared_previous`
and `want_added = declared_previous - remote_previous`, and for each of
the two predecessor labels it mutates exactly when the computed set
differs from the set parsed from the current label value, deleting the
old label if present and creating the sorted comma-joined value only
when the computed set is non-empty; on the spec's concrete scenario
(remote `previous.add` label `"1.0.1"`, declared previous
`{1.0.1, 1.0.2}`, remote-published previous `{1.0.1}`) the computed
`want_added` is `{1.0.2}` and the whole run is exactly one delete plus
one create for `previous.add`. -/
theorem claim1_previous_pair_labels :
    (∀ n : SyncInput, n.previous ≠ ∅ →
      mutsFor prevRemoveKey (sync_node n) =
        (if parseVersions ((n.labels prevRemoveKey).getD "") ≠ n.metaPrevious \ n.previous then
          (if (n.labels prevRemoveKey).isSome then [Mutation.del prevRemoveKey] else []) ++
          (if n.metaPrevious \ n.previous ≠ ∅ then
            [Mutation.post prevRemoveKey (joinSorted (n.metaPrevious \ n.previous))]
          else [])
        else []) ∧
      mutsFor prevAddKey (sync_node n) =
        (if parseVersions ((n.labels prevAddKey).getD "") ≠ n.previous \ n.metaPrevious then
          (if (n.labels prevAddKey).isSome then [Mutation.del prevAddKey] else []) ++
          (if n.previous \ n.metaPrevious ≠ ∅ then
            [Mutation.post prevAddKey (joinSorted (n.previous \ n.metaPrevious))]
          else [])
        else [])) ∧
    (addScenario.previous \ addScenario.metaPrevious = {"1.0.2"} ∧
     sync_node addScenario = [Mutation.del prevAddKey, Mutation.post prevAddKey "1.0.2"]) := by
  refine ⟨fun n hp => ⟨?_, ?_⟩, by decide, by decide⟩
  · rw [sync_node_decomp2, mutsFor_append, if_pos hp,
      mutsFor_sync_base_nil n prevRemoveKey (by decide) (by decide) (by decide),
      mutsFor_append,
      mutsFor_self_of_keys prevRemoveKey _ (prevPairStep_keys _ _ _),
      mutsFor_nil_of_keys prevRemoveKey _ (fun m hm => by
        rw [prevPairStep_keys _ _ _ m hm]; decide)]
    rw [List.nil_append, List.append_nil]
    rfl
  · rw [sync_node_decomp2, mutsFor_append, if_pos hp,
      mutsFor_sync_base_nil n prevAddKey (by decide) (by decide) (by decide),
      mutsFor_append,
      mutsFor_nil_of_keys prevAddKey _ (fun m hm => by
        rw [prevPairStep_keys _ _ _ m hm]; decide),
      mutsFor_self_of_keys prevAddKey _ (prevPairStep_keys _ _ _)]
    rw [List.nil_append, List.nil_append]
    rfl

/-- C1 witness: the general half of the claim applied to the concrete
scenario. -/
theorem claim1_previous_pair_labels_witness :
    mutsFor prevAddKey (sync_node addScenario) =
      [Mutation.del prevAddKey, Mutation.post prevAddKey "1.0.2"] :=
  ((claim1_previous_pair_labels.1 addScenario (by decide)).2).trans (by decide)

/-- C2: for a node with an empty declared `previous` set, any existing
`previous.add` label is deleted; when the current `previous.remove`
value is not `"*"` and the remote-published metadata lists at least one
previous version, the existing `previous.remove` label (if present) is
deleted and one with value `"*"` is created; when the remote-published
metadata lists no previous versions, no `previous.remove` mutation
happens even if the label is absent.  On the spec's concrete scenario
the whole run is exactly one create of `previous.remove = "*"`. -/
theorem claim2_no_previous_labels :
    (∀ n : SyncInput, n.previous = ∅ →
      mutsFor prevAddKey (sync_node n) =
        (if (n.labels prevAddKey).isSome then [Mutation.del prevAddKey] else []) ∧
      mutsFor prevRemoveKey (sync_node n) =
        (if (n.labels prevRemoveKey).getD "" ≠ "*" then
          (if n.metaPrevious ≠ ∅ then
            (if (n.labels prevRemoveKey).isSome then [Mutation.del prevRemoveKey] else []) ++
            [Mutation.post prevRemoveKey "*"]
          else [])
        else [])) ∧
    (sync_node starScenario = [Mutation.post prevRemoveKey "*"]) := by
  refine ⟨fun n hp => ⟨?_, ?_⟩, by decide⟩
  · have hpne : ¬n.previous ≠ ∅ := not_not_intro hp
    rw [sync_node_decomp2, mutsFor_append, if_neg hpne,
      mutsFor_sync_base_nil n prevAddKey (by decide) (by decide) (by decide),
      previousEmptyStep_decomp, mutsFor_append,
      mutsFor_self_of_keys prevAddKey _ (fun m hm => by
        rw [mem_ite_singleton hm]; rfl),
      mutsFor_nil_of_keys prevAddKey _ (fun m hm => by
        rw [previousEmptyStep_snd_keys n m hm]; decide)]
    rw [List.nil_append, List.append_nil]
  · have hpne : ¬n.previous ≠ ∅ := not_not_intro hp
    rw [sync_node_decomp2, mutsFor_append, if_neg hpne,
      mutsFor_sync_base_nil n prevRemoveKey (by decide) (by decide) (by decide),
      previousEmptyStep_decomp, mutsFor_append,
      mutsFor_nil_of_keys prevRemoveKey _ (fun m hm => by
        rw [mem_ite_singleton hm]; decide),
      mutsFor_self_of_keys prevRemoveKey _ (previousEmptyStep_snd_keys n)]
    rw [List.nil_append, List.nil_append]

/-- C2 witness: the general half of the claim applied to the concrete
scenario. -/
theorem claim2_no_previous_labels_witness :
    mutsFor prevRemoveKey (sync_node starScenario) = [Mutation.post prevRemoveKey "*"] :=
  ((claim2_no_previous_labels.1 starScenario (by decide)).2).trans (by decide)

/-- C3 counterexample: a remote channels label that is present but
carries the empty-string value differs from the desired value, yet the
code creates the desired label without deleting the existing one, so the
claimed delete-then-create does not happen. -/
theorem claim3_channels_cex :
    (emptyChannelsScenario.labels channelsKey).isSome = true ∧
    emptyChannelsScenario.labels channelsKey ≠ some emptyChannelsScenario.channelsMeta ∧
    sync_node emptyChannelsScenario = [Mutation.post channelsKey "stable"] ∧
    Mutation.del channelsKey ∉ sync_node emptyChannelsScenario := by
  refine ⟨by decide, by decide, by decide, by decide⟩

/-- C3 (amended): the channels step treats a remote label whose value is
the empty string exactly like an absent label: when the remote value
(defaulting to the empty string when absent) is empty it only creates
the desired label; when it equals the desired value it performs no
mutation; otherwise it deletes the old label and creates the desired
one. -/
theorem claim3_channels_step (n : SyncInput) :
    mutsFor channelsKey (sync_node n) =
      (if (n.labels channelsKey).getD "" = "" then
        [Mutation.post channelsKey n.channelsMeta]
      else if (n.labels channelsKey).getD "" = n.channelsMeta then []
      else [Mutation.del channelsKey, Mutation.post channelsKey n.channelsMeta]) := by
  rw [sync_node_decomp2, mutsFor_append, mutsFor_append, mutsFor_append,
    mutsFor_self_of_keys channelsKey _ (channelsStep_keys _ _),
    mutsFor_nil_of_keys channelsKey _ (fun m hm => by
      rw [mem_ite_singleton hm]; decide),
    mutsFor_nil_of_keys channelsKey _ (fun m hm => by
      rw [mem_ite_singleton hm]; decide),
    mutsFor_nil_of_keys channelsKey _ (fun m hm => by
      rcases previousStep_keys n m hm with h | h <;> rw [h] <;> decide)]
  rw [List.append_nil, List.append_nil, List.append_nil]
  unfold channelsStep
  by_cases h0 : (n.labels channelsKey).getD "" = ""
  · rw [if_pos h0, if_neg (by simp [h0]), if_pos (Or.inr h0), List.nil_append]
  · rw [if_neg h0]
    by_cases hd : (n.labels channelsKey).getD "" = n.channelsMeta
    · have hd0 : ¬n.channelsMeta = "" := fun he => h0 (hd.trans he)
      rw [if_pos hd, if_neg (by simp [hd]), if_neg (by simp [hd, hd0])]
      rfl
    · rw [if_neg hd, if_pos ⟨h0, hd⟩, if_pos (Or.inl ⟨h0, hd⟩)]
      rfl

/-- C4 counterexample: a declared predecessor version containing a comma
survives the first run as the label value `"a,b"`, which the second run
parses back as two versions, so the second run issues mutations. -/
theorem claim4_idempotence_cex :
    sync_node
        { commaScenario with
          labels := applyMutations commaScenario.labels (sync_node commaScenario) } =
      [Mutation.del prevAddKey, Mutation.post prevAddKey "a,b"] ∧
    ([Mutation.del prevAddKey, Mutation.post prevAddKey "a,b"] : List Mutation) ≠ [] := by
  refine ⟨by decide, by decide⟩

theorem sync_node_nil_of (version channelsMeta : String) (previous metaPrevious : Finset String)
    (L : String → Option String) (hd : channelsMeta ≠ "")
    (hchan : (L channelsKey).getD "" = channelsMeta)
    (hna : L nextAddKey = none) (hnr : L nextRemoveKey = none)
    (hprev : previous ≠ ∅ →
      parseVersions ((L prevRemoveKey).getD "") = metaPrevious \ previous ∧
      parseVersions ((L prevAddKey).getD "") = previous \ metaPrevious)
    (hempty : previous = ∅ →
      L prevAddKey = none ∧ ((L prevRemoveKey).getD "" = "*" ∨ metaPrevious = ∅)) :
    sync_node ⟨version, channelsMeta, previous, metaPrevious, L⟩ = [] := by
  show channelsStep channelsMeta ((L channelsKey).getD "") ++
      (if (L nextAddKey).isSome then [Mutation.del nextAddKey] else []) ++
      (if (L nextRemoveKey).isSome then [Mutation.del nextRemoveKey] else []) ++
      (if previous ≠ ∅ then
        prevPairStep prevRemoveKey (metaPrevious \ previous) L ++
        prevPairStep prevAddKey (previous \ metaPrevious) L
      else previousEmptyStep ⟨version, channelsMeta, previous, metaPrevious, L⟩) = []
  rw [hchan, channelsStep_noop channelsMeta hd, hna, hnr]
  rw [if_neg (by simp), if_neg (by simp)]
  rw [List.nil_append, List.nil_append, List.nil_append]
  by_cases hp : previous ≠ ∅
  · obtain ⟨hr, ha⟩ := hprev hp
    rw [if_pos hp]
    unfold prevPairStep
    rw [if_neg (not_not_intro hr), if_neg (not_not_intro ha)]
    rfl
  · obtain ⟨haddnone, hrem⟩ := hempty (not_not.mp hp)
    rw [if_neg hp]
    show (if (L prevAddKey).isSome then [Mutation.del prevAddKey] else []) ++
        (if (L prevRemoveKey).getD "" ≠ "*" then
          (if metaPrevious ≠ ∅ then
            (if (L prevRemoveKey).isSome then [Mutation.del prevRemoveKey] else []) ++
            [Mutation.post prevRemoveKey "*"]
          else [])
        else []) = []
    rw [haddnone, if_neg (by simp)]
    rcases hrem with hstar | hmeta
    · rw [if_neg (not_not_intro hstar)]
      rfl
    · rw [if_neg (not_not_intro hmeta)]
      by_cases hv : (L prevRemoveKey).getD "" ≠ "*"
      · rw [if_pos hv]
        rfl
      · rw [if_neg hv]
        rfl

/-- C4 (amended): reconciliation is idempotent provided the node's
computed channels string is non-empty and every version in the declared
and remote-published previous sets is non-empty and comma-free: applying
the mutations of one `sync_node` run to the remote labels (with the
remote-published release metadata unchanged) makes a second run produce
zero mutations. -/
theorem claim4_idempotent (n : SyncInput) (hd : n.channelsMeta ≠ "")
    (hp : ∀ v ∈ n.previous, v ≠ "" ∧ ',' ∉ v.data)
    (hm : ∀ v ∈ n.metaPrevious, v ≠ "" ∧ ',' ∉ v.data) :
    sync_node { n with labels := applyMutations n.labels (sync_node n) } = [] := by
  apply sync_node_nil_of n.version n.channelsMeta n.previous n.metaPrevious
    (applyMutations n.labels (sync_node n)) hd
  · rw [applied_sync_channels n]
    rfl
  · exact applied_sync_nextAdd n
  · exact applied_sync_nextRemove n
  · intro hprev
    constructor
    · rw [applied_sync_prevRemove n hprev]
      by_cases hne :
          parseVersions ((n.labels prevRemoveKey).getD "") ≠ n.metaPrevious \ n.previous
      · rw [if_pos hne]
        by_cases hw : n.metaPrevious \ n.previous ≠ ∅
        · rw [if_pos hw]
          exact parseVersions_joinSorted _ hw fun v hv =>
            hm v (Finset.mem_sdiff.mp hv).1
        · rw [if_neg hw]
          rw [not_not.mp hw]
          exact parseVersions_empty
      · rw [if_neg hne]
        exact not_not.mp hne
    · rw [applied_sync_prevAdd n hprev]
      by_cases hne :
          parseVersions ((n.labels prevAddKey).getD "") ≠ n.previous \ n.metaPrevious
      · rw [if_pos hne]
        by_cases hw : n.previous \ n.metaPrevious ≠ ∅
        · rw [if_pos hw]
          exact parseVersions_joinSorted _ hw fun v hv =>
            hp v (Finset.mem_sdiff.mp hv).1
        · rw [if_neg hw]
          rw [not_not.mp hw]
          exact parseVersions_empty
      · rw [if_neg hne]
        exact not_not.mp hne
  · intro hprev
    have hpne : ¬n.previous ≠ ∅ := not_not_intro hprev
    constructor
    · exact applied_sync_prevAdd_empty n hpne
    · rw [applied_sync_prevRemove_empty n hpne]
      by_cases hcase : (n.labels prevRemoveKey).getD "" ≠ "*" ∧ n.metaPrevious ≠ ∅
      · rw [if_pos hcase]
        left
        rfl
      · rw [if_neg hcase]
        rcases Decidable.not_and_iff_or_not.mp hcase with hstar | hmeta
        · left
          exact not_not.mp hstar
        · right
          exact not_not.mp hmeta

/-- C4 witness: the amended idempotence applied to a well-formed
concrete node. -/
theorem claim4_idempotent_witness :
    sync_node
        { idemScenario with
          labels := applyMutations idemScenario.labels (sync_node idemScenario) } = [] :=
  claim4_idempotent idemScenario (by decide) (by decide) (by decide)

/-! ## load_edges helper lemmas -/

theorem load_edges_step_dup {st : EdgesState} {e : EdgeJson}
    (h : (e.fromVersion, e.toVersion) ∈ st.edges) :
    load_edges_step st e = .error (.valueError dupEdgeMsg) := by
  unfold load_edges_step
  rw [if_pos h]

theorem load_edges_step_ok_inv {st : EdgesState} {e : EdgeJson} {st' : EdgesState}
    (h : load_edges_step st e = .ok st') :
    st'.edges = insert (e.fromVersion, e.toVersion) st.edges ∧
    ∀ v, (st'.nodes v).isSome = (st.nodes v).isSome := by
  by_cases hdup : (e.fromVersion, e.toVersion) ∈ st.edges
  · rw [load_edges_step_dup hdup] at h
    exact absurd h (by simp)
  · unfold load_edges_step at h
    rw [if_neg hdup] at h
    cases hfrom : st.nodes e.fromVersion with
    | none =>
      simp only [hfrom] at h
      exact absurd h (by simp)
    | some fn =>
      simp only [hfrom] at h
      cases hto : st.nodes e.toVersion with
      | none =>
        simp only [hto] at h
        exact absurd h (by simp)
      | some tn =>
        simp only [hto] at h
        by_cases hch : e.channels.toFinset ≠ fn.channels ∩ tn.channels
        · rw [if_pos hch] at h
          exact absurd h (by simp)
        · rw [if_neg hch] at h
          injection h with h'
          subst h'
          refine ⟨rfl, fun v => ?_⟩
          show (if v = e.toVersion then some (recordPrevious tn e.fromVersion)
            else st.nodes v).isSome = _
          by_cases hv : v = e.toVersion
          · rw [if_pos hv, hv, hto]
            rfl
          · rw [if_neg hv]

theorem load_edges_list_cons (st : EdgesState) (e : EdgeJson) (es : List EdgeJson) :
    load_edges_list st (e :: es) =
      match load_edges_step st e with
      | .error err => .error err
      | .ok st1 => load_edges_list st1 es := rfl

theorem load_edges_list_ok_inv {st : EdgesState} {l : List EdgeJson} {st' : EdgesState}
    (h : load_edges_list st l = .ok st') :
    st.edges ⊆ st'.edges ∧ ∀ v, (st'.nodes v).isSome = (st.nodes v).isSome := by
  induction l generalizing st with
  | nil =>
    injection h with h'
    subst h'
    exact ⟨fun a ha => ha, fun v => rfl⟩
  | cons e es ih =>
    rw [load_edges_list_cons] at h
    cases hstep : load_edges_step st e with
    | error err =>
      rw [hstep] at h
      exact absurd h (by simp)
    | ok st1 =>
      rw [hstep] at h
      obtain ⟨hsub, hdom⟩ := ih h
      obtain ⟨hed, hdom1⟩ := load_edges_step_ok_inv hstep
      refine ⟨fun a ha => hsub (by rw [hed]; exact Finset.mem_insert_of_mem ha), fun v => ?_⟩
      rw [hdom v, hdom1 v]

theorem load_edges_list_append (st : EdgesState) (a b : List EdgeJson) :
    load_edges_list st (a ++ b) =
      match load_edges_list st a with
      | .error err => .error err
      | .ok st' => load_edges_list st' b := by
  induction a generalizing st with
  | nil => rfl
  | cons e es ih =>
    rw [List.cons_append, load_edges_list_cons, load_edges_list_cons]
    cases hstep : load_edges_step st e with
    | error err => rfl
    | ok st1 => exact ih st1

theorem load_edges_step_missing {st : EdgesState} {e : EdgeJson}
    (h : st.nodes e.fromVersion = none ∨ st.nodes e.toVersion = none) :
    ∃ err, load_edges_step st e = .error err := by
  by_cases hdup : (e.fromVersion, e.toVersion) ∈ st.edges
  · exact ⟨_, load_edges_step_dup hdup⟩
  · unfold load_edges_step
    rw [if_neg hdup]
    cases hfrom : st.nodes e.fromVersion with
    | none => exact ⟨.keyError e.fromVersion, rfl⟩
    | some fn =>
      cases hto : st.nodes e.toVersion with
      | none => exact ⟨.keyError e.toVersion, rfl⟩
      | some tn =>
        rcases h with h | h
        · exact absurd (hfrom.symm.trans h) (by simp)
        · exact absurd (hto.symm.trans h) (by simp)

/-! ## Claims C5, C6, C10: edge loading -/

/-- C5: once an edge is past the duplicate check and both endpoints
resolve, loading raises `ValueError` exactly when the edge's channel set
differs from the intersection of its endpoints' channel sets, and
proceeds exactly when they are equal. -/
theorem claim5_edge_channel_intersection :
    ∀ (st : EdgesState) (e : EdgeJson) (fn tn : LoadedNode),
      (e.fromVersion, e.toVersion) ∉ st.edges →
      st.nodes e.fromVersion = some fn →
      st.nodes e.toVersion = some tn →
      ((e.channels.toFinset ≠ fn.channels ∩ tn.channels →
        load_edges_step st e = .error (.valueError channelMismatchMsg)) ∧
       (e.channels.toFinset = fn.channels ∩ tn.channels →
        ∃ st', load_edges_step st e = .ok st')) := by
  intro st e fn tn hdup hfrom hto
  constructor
  · intro hne
    unfold load_edges_step
    rw [if_neg hdup]
    simp only [hfrom, hto]
    rw [if_pos hne]
  · intro heq
    unfold load_edges_step
    rw [if_neg hdup]
    simp only [hfrom, hto]
    rw [if_neg (not_not_intro heq)]
    exact ⟨_, rfl⟩

/-- C5 witness: the mismatch half applied to a concrete edge whose
channel set is strictly larger than the endpoint intersection. -/
theorem claim5_edge_channel_intersection_witness :
    load_edges_step ⟨∅, twoNodesMap⟩ ⟨"1.0.0", "1.0.1", ["stable", "fast"]⟩ =
      .error (.valueError channelMismatchMsg) :=
  (claim5_edge_channel_intersection ⟨∅, twoNodesMap⟩ ⟨"1.0.0", "1.0.1", ["stable", "fast"]⟩
    ⟨"1.0.0", "quay.io/x/y@sha256:0", {"stable"}, some [], none⟩
    ⟨"1.0.1", "quay.io/x/y@sha256:1", {"stable", "fast"}, some [], none⟩
    (by decide) rfl rfl).1 (by decide)

/-- C6: an edge whose (`from`,`to`) pair is already recorded raises
`ValueError` regardless of its channels; in particular, when loading a
list containing an edge for that pair succeeded, a later edge file with
the same pair raises; a concrete duplicated pair (with different channel
contents) errors. -/
theorem claim6_duplicate_edges :
    (∀ (st : EdgesState) (e : EdgeJson), (e.fromVersion, e.toVersion) ∈ st.edges →
      load_edges_step st e = .error (.valueError dupEdgeMsg)) ∧
    (∀ (st0 : EdgesState) (l1 : List EdgeJson) (e1 : EdgeJson) (l2 : List EdgeJson)
        (e2 : EdgeJson) (st : EdgesState),
      e1.fromVersion = e2.fromVersion → e1.toVersion = e2.toVersion →
      load_edges_list st0 (l1 ++ e1 :: l2) = .ok st →
      load_edges_step st e2 = .error (.valueError dupEdgeMsg)) ∧
    (load_edges [⟨"1.0.0", "1.0.1", ["stable"]⟩, ⟨"1.0.0", "1.0.1", ["fast"]⟩] twoNodesMap =
      .error (.valueError dupEdgeMsg)) := by
  refine ⟨fun st e h => load_edges_step_dup h, ?_, rfl⟩
  intro st0 l1 e1 l2 e2 st hfrom hto hok
  rw [load_edges_list_append] at hok
  cases hpre : load_edges_list st0 l1 with
  | error err =>
    rw [hpre] at hok
    exact absurd hok (by simp)
  | ok st1 =>
    rw [hpre] at hok
    replace hok : load_edges_list st1 (e1 :: l2) = Except.ok st := hok
    rw [load_edges_list_cons] at hok
    cases hstep : load_edges_step st1 e1 with
    | error err =>
      rw [hstep] at hok
      exact absurd hok (by simp)
    | ok st2 =>
      rw [hstep] at hok
      have hmem : (e2.fromVersion, e2.toVersion) ∈ st2.edges := by
        rw [← hfrom, ← hto, (load_edges_step_ok_inv hstep).1]
        exact Finset.mem_insert_self _ _
      exact load_edges_step_dup ((load_edges_list_ok_inv hok).1 hmem)

/-- C6 witness: the duplicate check applied at a state already holding
the pair. -/
theorem claim6_duplicate_edges_witness :
    load_edges_step ⟨{("1.0.0", "1.0.1")}, twoNodesMap⟩ ⟨"1.0.0", "1.0.1", ["fast"]⟩ =
      .error (.valueError dupEdgeMsg) :=
  claim6_duplicate_edges.1 ⟨{("1.0.0", "1.0.1")}, twoNodesMap⟩ ⟨"1.0.0", "1.0.1", ["fast"]⟩
    (by decide)

/-- C10: an edge endpoint missing from the loaded nodes makes
`load_edges` fail with `KeyError` (the unguarded `nodes[...]`
indexings), not `ValueError`; consequently `load_edges` can return
successfully only when every edge endpoint is a loaded node. -/
theorem claim10_missing_endpoint_keyerror :
    (∀ (st : EdgesState) (e : EdgeJson), (e.fromVersion, e.toVersion) ∉ st.edges →
      st.nodes e.fromVersion = none →
      load_edges_step st e = .error (.keyError e.fromVersion)) ∧
    (∀ (st : EdgesState) (e : EdgeJson) (fn : LoadedNode),
      (e.fromVersion, e.toVersion) ∉ st.edges →
      st.nodes e.fromVersion = some fn → st.nodes e.toVersion = none →
      load_edges_step st e = .error (.keyError e.toVersion)) ∧
    (∀ (nodes : String → Option LoadedNode) (l : List EdgeJson) (e : EdgeJson),
      e ∈ l → (nodes e.fromVersion = none ∨ nodes e.toVersion = none) →
      ∀ result, load_edges l nodes ≠ .ok result) := by
  refine ⟨?_, ?_, ?_⟩
  · intro st e hdup hfrom
    unfold load_edges_step
    rw [if_neg hdup]
    simp only [hfrom]
  · intro st e fn hdup hfrom hto
    unfold load_edges_step
    rw [if_neg hdup]
    simp only [hfrom, hto]
  · intro nodes l e hmem hmiss result
    unfold load_edges
    suffices hlist : ∀ st : EdgesState,
        (st.nodes e.fromVersion = none ∨ st.nodes e.toVersion = none) →
        ∀ st', load_edges_list st l ≠ .ok st' by
      intro hcontra
      cases hload : load_edges_list ⟨∅, nodes⟩ l with
      | error err =>
        rw [hload] at hcontra
        exact absurd hcontra (by simp [Except.map])
      | ok st' => exact hlist ⟨∅, nodes⟩ hmiss st' hload
    clear hmiss
    induction l with
    | nil => exact absurd hmem (by simp)
    | cons f fs ih =>
      intro st hmiss st' hok
      rw [load_edges_list_cons] at hok
      rcases List.mem_cons.mp hmem with rfl | hmem'
      · obtain ⟨err, herr⟩ := load_edges_step_missing hmiss
        rw [herr] at hok
        exact absurd hok (by simp)
      · cases hstep : load_edges_step st f with
        | error err =>
          rw [hstep] at hok
          exact absurd hok (by simp)
        | ok st1 =>
          rw [hstep] at hok
          have hdom := (load_edges_step_ok_inv hstep).2
          refine ih hmem' st1 ?_ st' hok
          rcases hmiss with h | h
          · left
            have hiso := hdom e.fromVersion
            rw [h] at hiso
            exact Option.not_isSome_iff_eq_none.mp (by simp [hiso])
          · right
            have hiso := hdom e.toVersion
            rw [h] at hiso
            exact Option.not_isSome_iff_eq_none.mp (by simp [hiso])

/-- C10 witness: the `KeyError` on a concrete edge whose `from` version
is not among the loaded nodes. -/
theorem claim10_missing_endpoint_keyerror_witness :
    load_edges_step ⟨∅, twoNodesMap⟩ ⟨"0.9.9", "1.0.1", ["stable"]⟩ =
      .error (.keyError "0.9.9") :=
  claim10_missing_endpoint_keyerror.1 ⟨∅, twoNodesMap⟩ ⟨"0.9.9", "1.0.1", ["stable"]⟩
    (by decide) rfl

/-! ## Claim C7: load_nodes metadata -/

theorem lookup_append_of_keys_ne {l rest : List (String × String)} {k : String}
    (h : ∀ p ∈ l, p.1 ≠ k) :
    List.lookup k (l ++ rest) = List.lookup k rest := by
  induction l with
  | nil => rfl
  | cons p t ih =>
    obtain ⟨a, b⟩ := p
    have ha : a ≠ k := h (a, b) (by simp)
    show List.lookup k ((a, b) :: (t ++ rest)) = _
    have hbeq : (k == a) = false := beq_eq_false_iff_ne.mpr (Ne.symm ha)
    rw [List.lookup_cons]
    simp only [hbeq]
    exact ih fun q hq => h q (by simp [hq])

theorem lookup_dictSet (m : List (String × String)) (k v : String) :
    List.lookup k (dictSet m k v) = some v := by
  unfold dictSet
  rw [lookup_append_of_keys_ne (fun p hp => by
    have := List.of_mem_filter hp
    simpa using this)]
  rw [List.lookup_cons]
  simp

/-- C7: after loading, every node's metadata maps the release-channels
key to the sorted comma-joined string of the node's channel set (the
mapping is created when absent); a node appearing in channels `stable`
and `fast` ends with the value `"fast,stable"`. -/
theorem claim7_channels_metadata :
    (∀ (files : List (String × NodeJson)) (v : String) (n : LoadedNode),
      load_nodes files v = some n →
      List.lookup channelsKey (n.metadata.getD []) = some (joinSorted n.channels)) ∧
    ((load_nodes twoChannelFiles "1.0.0").map
        (fun n => List.lookup channelsKey (n.metadata.getD [])) =
      some (some "fast,stable")) := by
  constructor
  · intro files v n h
    unfold load_nodes at h
    obtain ⟨m, _, rfl⟩ := Option.map_eq_some'.mp h
    show List.lookup channelsKey
      ((some (dictSet (m.metadata.getD []) channelsKey (joinSorted m.channels))).getD []) =
      some (joinSorted m.channels)
    exact lookup_dictSet _ _ _
  · decide

/-- C7 witness: the general half applied to the concrete two-channel
node. -/
theorem claim7_channels_metadata_witness :
    List.lookup channelsKey
        ((LoadedNode.mk "1.0.0" "quay.io/x/y@sha256:0" (insert "fast" {"stable"})
          (some [(channelsKey, "fast,stable")]) none).metadata.getD []) =
      some (joinSorted (LoadedNode.mk "1.0.0" "quay.io/x/y@sha256:0"
        (insert "fast" {"stable"}) (some [(channelsKey, "fast,stable")]) none).channels) :=
  claim7_channels_metadata.1 twoChannelFiles "1.0.0" _ (by decide)

/-! ## Claim C8: dry-run label writers -/

/-- C8: with no token supplied, `delete_label` and `post_label` issue no
network call at all, while still printing the line with the node
version, the verb, and the target URI. -/
theorem claim8_dry_run :
    ∀ version payload labelKey labelValue uri, manifest_uri payload = .ok uri →
      delete_label version payload labelKey none =
        .ok ⟨[version ++ " delete " ++ (uri ++ "/labels/" ++ labelKey)], []⟩ ∧
      post_label version payload labelKey labelValue none =
        .ok ⟨[version ++ " post " ++ (uri ++ "/labels")], []⟩ := by
  intro version payload labelKey labelValue uri h
  constructor
  · unfold delete_label
    rw [h]
    rfl
  · unfold post_label
    rw [h]
    rfl


/-- C8 witness: both dry-run writers at a concrete node and label. -/
theorem claim8_dry_run_witness :
    delete_label "4.1.0" "quay.io/a/b@sha256:0" "k" none =
      .ok ⟨["4.1.0" ++ " delete " ++
        ("https://quay.io/api/v1/repository/a/b/manifest/sha256:0" ++ "/labels/" ++ "k")], []⟩ ∧
    post_label "4.1.0" "quay.io/a/b@sha256:0" "k" "v" none =
      .ok ⟨["4.1.0" ++ " post " ++
        ("https://quay.io/api/v1/repository/a/b/manifest/sha256:0" ++ "/labels")], []⟩ :=
  claim8_dry_run "4.1.0" "quay.io/a/b@sha256:0" "k" "v"
    "https://quay.io/api/v1/repository/a/b/manifest/sha256:0" rfl

/-! ## Claim C9: get_release_metadata layer scan -/

/-- C9 (code bug): on a manifest whose most recently added layer lacks
the release-metadata file while an earlier layer contains it, the claim
(and spec) say the backward scan continues and returns the earlier
layer's metadata, but the code raises `KeyError` from
`tar.extractfile` on the first scanned layer and never advances — the
final `no release-metadata in ... layers` error is reachable only with
an empty layer list.  The pullspec validation (`ValueError` for a
non-Quay pullspec) does hold. -/
theorem claim9_layer_scan_bug :
    (geminateLayers.map Layer.metadataFile = [some ⟨some ["1.0.0"]⟩, none]) ∧
    get_release_metadata "4.1.0" "quay.io/openshift-release-dev/ocp-release@sha256:c"
        geminateLayers = .error (.keyError releaseMetadataPath) ∧
    get_release_metadata "4.1.0" "quay.io/openshift-release-dev/ocp-release@sha256:c" [] =
      .error (.valueError ("no release-metadata in " ++ "4.1.0" ++ " layers")) ∧
    get_release_metadata "4.1.0" "example.com/repo@sha256:c" geminateLayers =
      .error (.valueError ("non-Quay pullspec: " ++ "example.com/repo@sha256:c")) := by
  refine ⟨rfl, rfl, rfl, rfl⟩

end PushToQuay
